import Mathlib

/-!
Verification of `onedrive_validate.py` (fileenc repository).

Strings are modelled as `List Char` (Python `str` is a sequence of code
points).  Pure functions of the source are translated directly; the
stateful tree walker is modelled by explicit state passing over a
filesystem tree, with `os.rename` represented as an in-place update of
the parent directory's entry list.
-/

set_option maxRecDepth 40000

namespace OnedriveValidate

abbrev Str := List Char

/-! ### Constants (onedrive_validate.py lines 6-17) -/

/-- FORBIDDEN_CHARS = set('"*:<>?/\\|') -/
def FORBIDDEN_CHARS : List Char := ['"', '*', ':', '<', '>', '?', '/', '\\', '|']

/-- PROBLEMATIC_CHARS = set("#%") -/
def PROBLEMATIC_CHARS : List Char := ['#', '%']

/-- RESERVED_NAMES: CON, PRN, AUX, NUL, COM1..COM9, LPT1..LPT9
    (the Python set comprehension expanded to the explicit 22 names). -/
def RESERVED_NAMES : List Str :=
  ["CON", "PRN", "AUX", "NUL",
   "COM1", "COM2", "COM3", "COM4", "COM5", "COM6", "COM7", "COM8", "COM9",
   "LPT1", "LPT2", "LPT3", "LPT4", "LPT5", "LPT6", "LPT7", "LPT8",
   "LPT9"].map String.toList

def MAX_PATH_LEN : Nat := 400

def MAX_NAME_LEN : Nat := 255

/-! ### Character classes -/

def isForbiddenChar (c : Char) : Bool := decide (c ∈ FORBIDDEN_CHARS)

def isProblematicChar (c : Char) : Bool := decide (c ∈ PROBLEMATIC_CHARS)

/-- ord(c) < 32 or 0x7F <= ord(c) <= 0x9F -/
def isControlChar (c : Char) : Bool :=
  decide (c.toNat < 32 ∨ (0x7F ≤ c.toNat ∧ c.toNat ≤ 0x9F))

/-- 0x200B..0x200F, 0x202A..0x202E, 0x2060..0x206F -/
def isZeroWidthOrRtl (c : Char) : Bool :=
  decide ((0x200B ≤ c.toNat ∧ c.toNat ≤ 0x200F) ∨
          (0x202A ≤ c.toNat ∧ c.toNat ≤ 0x202E) ∨
          (0x2060 ≤ c.toNat ∧ c.toNat ≤ 0x206F))

/-- ASCII upper-casing of one character.  Python uses `str.upper`; for the
    comparisons against `RESERVED_NAMES` (pure ASCII words over
    C,O,N,P,R,A,U,X,L,M,T and digits) only the ASCII case fold matters. -/
def upperChar (c : Char) : Char :=
  if 'a' ≤ c ∧ c ≤ 'z' then Char.ofNat (c.toNat - 32) else c

/-! ### Python `sorted(set(...))`.
`sortChars (l.dedup)` is the ascending duplicate-free list of the
elements of `l`, which is exactly what `sorted(set(l))` returns. -/

def insertSorted (c : Char) : List Char → List Char
  | [] => [c]
  | d :: rest => if c ≤ d then c :: d :: rest else d :: insertSorted c rest

def sortChars : List Char → List Char
  | [] => []
  | c :: rest => insertSorted c (sortChars rest)

def sortedSet (l : List Char) : List Char := sortChars l.dedup

/-! ### Rule engine (lines 19-46) -/

/-- sorted(set(c for c in name if c in FORBIDDEN_CHARS)) -/
def has_forbidden_chars (name : Str) : List Char :=
  sortedSet (name.filter isForbiddenChar)

/-- sorted(set(c for c in name if c in PROBLEMATIC_CHARS)) -/
def has_problematic_chars (name : Str) : List Char :=
  sortedSet (name.filter isProblematicChar)

/-- sorted(set(c for c in name if ord(c) < 32 or 0x7F <= ord(c) <= 0x9F)) -/
def has_control_chars (name : Str) : List Char :=
  sortedSet (name.filter isControlChar)

/-- collect the zero-width / RTL characters, as sorted(set(res)) -/
def has_zero_width_or_rtl (name : Str) : List Char :=
  sortedSet (name.filter isZeroWidthOrRtl)

/-- base = name.split('.')[0]; return base.upper() in RESERVED_NAMES -/
def is_reserved_name (name : Str) : Bool :=
  decide ((name.takeWhile (· ≠ '.')).map upperChar ∈ RESERVED_NAMES)

/-- basename.endswith(' ') or basename.endswith('.')  (line 165) -/
def ends_with_space_or_dot (name : Str) : Bool :=
  decide (name.getLast? = some ' ' ∨ name.getLast? = some '.')

/-- basename.startswith('~')  (lines 81, 200) -/
def starts_with_tilde (name : Str) : Bool :=
  decide (name.head? = some '~')

/-! ### os.path.splitext
Extension starts at the last dot, unless every character before that dot
is itself a dot (then there is no extension).  The inputs in this program
are base names with no path separator (separators are replaced before
`splitext` is ever applied), so the separator handling of the original
can be dropped. -/

def splitext (p : Str) : Str × Str :=
  match p.reverse.findIdx? (· = '.') with
  | none => (p, [])
  | some k =>
    let i := p.length - 1 - k
    if (p.take i).any (· ≠ '.') then (p.take i, p.drop i) else (p, [])

/-! ### Sanitizer: make_safe_name (lines 48-108)
The single Python function is split into the pre-truncation stage
`sanitize_pre` (lines 59-96) followed by the length cap (lines 98-106);
`make_safe_name` is their sequential composition, exactly as in the
source. -/

/-- one pass of the character loop (lines 60-76): control and
    zero-width/RTL characters are dropped, forbidden and problematic
    characters become an underscore, everything else is kept. -/
def keepChar (c : Char) : Option Char :=
  if isControlChar c then none
  else if isZeroWidthOrRtl c then none
  else if isForbiddenChar c || isProblematicChar c then some '_'
  else some c

/-- new_name = ''.join(chars)  after the loop of lines 60-76 -/
def sanitize_chars (basename : Str) : Str := basename.filterMap keepChar

/-- new_name.rstrip(' .')  (line 85) -/
def rstripSpaceDot (l : Str) : Str :=
  (l.reverse.dropWhile (fun c => c = ' ' || c = '.')).reverse

/-- if new_name.startswith('~'): new_name = '_' + new_name[1:]  (lines 81-82) -/
def tildeStep (l : Str) : Str :=
  if starts_with_tilde l then '_' :: l.tail else l

/-- if not new_name: new_name = "_"  (lines 88-89) -/
def emptyStep (l : Str) : Str :=
  if l = [] then ['_'] else l

/-- base = new_name.split('.')[0]; if base.upper() in RESERVED_NAMES:
    rest = new_name[len(base):]; new_name = base + "__" + rest  (lines 92-96) -/
def reservedStep (l : Str) : Str :=
  let base := l.takeWhile (· ≠ '.')
  if base.map upperChar ∈ RESERVED_NAMES then
    base ++ ['_', '_'] ++ l.drop base.length
  else l

/-- lines 59-96 of make_safe_name: everything before the length cap -/
def sanitize_pre (basename : Str) : Str :=
  reservedStep (emptyStep (rstripSpaceDot (tildeStep (sanitize_chars basename))))

/-- the length cap (lines 98-106).  Python's `allowed_root_len <= 0` is
    `MAX_NAME_LEN - len(ext) = 0` over `Nat` (truncated subtraction), and
    `new_name[-MAX_NAME_LEN:]` takes the last `MAX_NAME_LEN` characters. -/
def lengthCap (new_name : Str) : Str :=
  if new_name.length > MAX_NAME_LEN then
    let root := (splitext new_name).1
    let ext := (splitext new_name).2
    let allowed_root_len := MAX_NAME_LEN - ext.length
    if allowed_root_len = 0 then
      new_name.drop (new_name.length - MAX_NAME_LEN)
    else
      root.take allowed_root_len ++ ext
  else new_name

/-- make_safe_name (lines 48-108) -/
def make_safe_name (basename : Str) : Str :=
  lengthCap (sanitize_pre basename)

/-! ### get_unique_name (lines 110-120)
Python `str(counter)` is the decimal representation `natDigits counter`.
The unbounded `while os.path.exists(...)` loop is modelled with a fuel of
`existing.length + 1` attempts; `uniqueLoop_not_mem` below proves this
fuel is always sufficient, so the model never exercises the
out-of-fuel branch.  `existing` is the list of names currently present
in `dirpath` (what `os.path.exists(os.path.join(dirpath, _))` consults). -/

def digitChar (d : Nat) : Char := Char.ofNat (48 + d)

def natDigits (n : Nat) : List Char :=
  if _h : n < 10 then [digitChar n]
  else natDigits (n / 10) ++ [digitChar (n % 10)]
decreasing_by exact Nat.div_lt_self (by omega) (by omega)

def uniqueLoop (existing : List Str) (root ext : Str) : Str → Nat → Nat → Str
  | candidate, _, 0 => candidate
  | candidate, counter, fuel + 1 =>
    if candidate ∈ existing then
      uniqueLoop existing root ext (root ++ '_' :: natDigits counter ++ ext) (counter + 1) fuel
    else candidate

def get_unique_name (existing : List Str) (desired : Str) : Str :=
  uniqueLoop existing (splitext desired).1 (splitext desired).2
    desired 1 (existing.length + 1)

/-- the sequence of candidate names get_unique_name tries:
    desired, root_1ext, root_2ext, ... -/
def uniqueCand (desired : Str) (i : Nat) : Str :=
  if i = 0 then desired
  else (splitext desired).1 ++ '_' :: natDigits i ++ (splitext desired).2

/-! ### check_and_maybe_fix (lines 122-221)
The function is pure except for the prints (dropped), the `os.rename`
call and the existence checks of `get_unique_name`.  It is therefore
modelled as a pure function of the entry's base name, the list of names
currently existing in the parent directory, the path of the entry
relative to the scan root, and the prefix length.  The `os.rename` call
is recorded in `renameCall` (`none` = no system call was made); the
caller applies it to the directory state.  `rename_needed` is the
internal flag, exposed for specification purposes. -/

structure CheckResult where
  errors : Nat
  warnings : Nat
  new_basename : Str
  did_rename : Bool
  rename_needed : Bool
  renameCall : Option (Str × Str)

def check_and_maybe_fix (existing : List Str) (basename : Str) (_is_dir : Bool)
    (fix : Bool) (rel_path : Str) (prefix_len : Nat) : CheckResult :=
  let errors := 0
  let warnings := 0
  let rename_needed := false
  -- 1) path length (report only, never fixed)
  let effective_len := prefix_len + rel_path.length
  let errors := if effective_len > MAX_PATH_LEN then errors + 1 else errors
  -- 2) name length
  let errors := if basename.length > MAX_NAME_LEN then errors + 1 else errors
  let rename_needed := if basename.length > MAX_NAME_LEN then true else rename_needed
  -- 3) forbidden characters
  let errors := if has_forbidden_chars basename ≠ [] then errors + 1 else errors
  let rename_needed := if has_forbidden_chars basename ≠ [] then true else rename_needed
  -- 4) trailing space or dot
  let errors := if ends_with_space_or_dot basename then errors + 1 else errors
  let rename_needed := if ends_with_space_or_dot basename then true else rename_needed
  -- 5) reserved Windows names
  let errors := if is_reserved_name basename then errors + 1 else errors
  let rename_needed := if is_reserved_name basename then true else rename_needed
  -- 6) control / zero-width characters
  let errors := if has_control_chars basename ≠ [] then errors + 1 else errors
  let rename_needed := if has_control_chars basename ≠ [] then true else rename_needed
  let errors := if has_zero_width_or_rtl basename ≠ [] then errors + 1 else errors
  let rename_needed := if has_zero_width_or_rtl basename ≠ [] then true else rename_needed
  -- 7) problematic characters: warning; rename_needed = True if fix else rename_needed
  let warnings := if has_problematic_chars basename ≠ [] then warnings + 1 else warnings
  let rename_needed :=
    if has_problematic_chars basename ≠ [] then (if fix then true else rename_needed)
    else rename_needed
  let warnings := if starts_with_tilde basename then warnings + 1 else warnings
  let rename_needed :=
    if starts_with_tilde basename then (if fix then true else rename_needed)
    else rename_needed
  -- rename if requested and needed
  if fix && rename_needed then
    let safe := make_safe_name basename
    let safe_unique := get_unique_name existing safe
    if safe_unique ≠ basename then
      { errors := errors, warnings := warnings, new_basename := safe_unique,
        did_rename := true, rename_needed := rename_needed,
        renameCall := some (basename, safe_unique) }
    else
      { errors := errors, warnings := warnings, new_basename := basename,
        did_rename := false, rename_needed := rename_needed, renameCall := none }
  else
    { errors := errors, warnings := warnings, new_basename := basename,
      did_rename := false, rename_needed := rename_needed, renameCall := none }

/-! ### Closed-form views of check_and_maybe_fix's outputs.
These are specification formulas (proved equal to the corresponding
fields below); they make explicit that the rename decision depends only
on the base name, the fix flag and the directory content — never on the
path-length check. -/

/-- the rename-needed flag as a single disjunction -/
def rename_needed_spec (basename : Str) (fix : Bool) : Bool :=
  decide (basename.length > MAX_NAME_LEN) ||
  decide (has_forbidden_chars basename ≠ []) ||
  ends_with_space_or_dot basename ||
  is_reserved_name basename ||
  decide (has_control_chars basename ≠ []) ||
  decide (has_zero_width_or_rtl basename ≠ []) ||
  fix && decide (has_problematic_chars basename ≠ []) ||
  fix && starts_with_tilde basename

/-- whether an on-disk rename is performed -/
def did_rename_spec (existing : List Str) (basename : Str) (fix : Bool) : Bool :=
  fix && rename_needed_spec basename fix &&
    decide (get_unique_name existing (make_safe_name basename) ≠ basename)

/-- the base name the entry carries afterwards -/
def new_basename_spec (existing : List Str) (basename : Str) (fix : Bool) : Str :=
  if did_rename_spec existing basename fix
  then get_unique_name existing (make_safe_name basename) else basename

/-- the os.rename call made, if any -/
def renameCall_spec (existing : List Str) (basename : Str) (fix : Bool) :
    Option (Str × Str) :=
  if did_rename_spec existing basename fix
  then some (basename, get_unique_name existing (make_safe_name basename)) else none

/-! ### The filesystem model and validate (lines 223-260)

A directory's content is an ordered list of (name, node) pairs; each
node carries a numeric identity (standing for the file's on-disk
identity, e.g. its inode), which renames never change.  `os.walk`
resolves child directories lazily by name, so the model's descent looks
the current name up in the (possibly renamed) entry list; a lookup that
fails is a silent skip, exactly like `os.walk` on a vanished path. -/

mutual
inductive FsNode where
  | file (id : Nat)
  | dir (id : Nat) (children : FsEntries)
inductive FsEntries where
  | nil
  | cons (name : Str) (node : FsNode) (rest : FsEntries)
end

def FsNode.nodeId : FsNode → Nat
  | .file i => i
  | .dir i _ => i

def FsNode.isDirNode : FsNode → Bool
  | .file _ => false
  | .dir _ _ => true

namespace FsEntries

/-- all names in the directory, in listing order -/
def namesE : FsEntries → List Str
  | .nil => []
  | .cons n _ rest => n :: namesE rest

/-- names of the subdirectories (os.walk dirnames) -/
def dirNamesE : FsEntries → List Str
  | .nil => []
  | .cons n t rest => if t.isDirNode then n :: dirNamesE rest else dirNamesE rest

/-- names of the plain files (os.walk filenames) -/
def fileNamesE : FsEntries → List Str
  | .nil => []
  | .cons n t rest => if t.isDirNode then fileNamesE rest else n :: fileNamesE rest

/-- nodes of the subdirectories, in listing order -/
def dirNodesE : FsEntries → List FsNode
  | .nil => []
  | .cons _ t rest => if t.isDirNode then t :: dirNodesE rest else dirNodesE rest

/-- nodes of the plain files, in listing order -/
def fileNodesE : FsEntries → List FsNode
  | .nil => []
  | .cons _ t rest => if t.isDirNode then fileNodesE rest else t :: fileNodesE rest

/-- resolve a name in the directory (first match) -/
def lookupE : FsEntries → Str → Option FsNode
  | .nil, _ => none
  | .cons n t rest, q => if n = q then some t else lookupE rest q

/-- os.rename within one directory: the first entry named `old` is
    re-registered under `new`; the node (identity, children) is kept. -/
def replaceE : FsEntries → Str → Str → FsEntries
  | .nil, _, _ => .nil
  | .cons n t rest, old, new =>
    if n = old then .cons new t rest else .cons n t (replaceE rest old new)

end FsEntries

open FsEntries

/-! well-formed directory tree: within each directory all names are
    distinct (true of every real filesystem). -/
mutual
def wfN : FsNode → Bool
  | .file _ => true
  | .dir _ cs => decide (namesE cs).Nodup && wfE cs
def wfE : FsEntries → Bool
  | .nil => true
  | .cons _ t rest => wfN t && wfE rest
end

/-! fuel bound for the walker (see `walkDir`) -/
mutual
def nodeFuel : FsNode → Nat
  | .file _ => 0
  | .dir _ cs => 1 + entriesFuel cs
def entriesFuel : FsEntries → Nat
  | .nil => 0
  | .cons _ t rest => 1 + max (nodeFuel t) (entriesFuel rest)
end

/-- fuel needed by `walkPend` for a given list of pending subtree nodes -/
def pendFuelL : List FsNode → Nat
  | [] => 0
  | t :: ts => 1 + max (nodeFuel t) (pendFuelL ts)

/-! specification of the visit order: for each directory level,
    subdirectory ids, then file ids, then recursively the contents of
    each subdirectory.  Every entry of the original tree occurs exactly
    once. -/
mutual
def expectedN : FsNode → List Nat
  | .file _ => []
  | .dir _ cs =>
    (dirNodesE cs).map FsNode.nodeId ++ (fileNodesE cs).map FsNode.nodeId
      ++ expectedSubs cs
def expectedSubs : FsEntries → List Nat
  | .nil => []
  | .cons _ t rest =>
    (if t.isDirNode then expectedN t else []) ++ expectedSubs rest
end

/-- the run totals plus the stream of visited entry ids -/
structure WalkRes where
  errors : Nat
  warnings : Nat
  renames : Nat
  visited : List Nat

def WalkRes.zero : WalkRes := ⟨0, 0, 0, []⟩

/-- relative path of a child: os.path.relpath(os.path.join(dirpath, b), root) -/
def relJoin (relDir : Str) (b : Str) : Str :=
  if relDir = [] then b else relDir ++ '/' :: b

/-- the `for i, d in enumerate(list(dirnames))` loop (lines 232-242):
    classify each subdirectory by its snapshot name, maybe rename it on
    disk, and write the new name back into the pending list
    (`dirnames[i] = new_name`).  Returns the updated directory content,
    the rewritten pending list, and the accumulated totals. -/
def dirPass (fix : Bool) (prefix_len : Nat) (relDir : Str) :
    List Str → FsEntries → (FsEntries × List Str × WalkRes)
  | [], entries => (entries, [], WalkRes.zero)
  | d :: rest, entries =>
    let r := check_and_maybe_fix (namesE entries) d true fix (relJoin relDir d) prefix_len
    let visitedHere := match lookupE entries d with
      | some t => [t.nodeId]
      | none => []
    let entries' := if r.did_rename then replaceE entries d r.new_basename else entries
    let res := dirPass fix prefix_len relDir rest entries'
    (res.1, r.new_basename :: res.2.1,
      ⟨r.errors + res.2.2.errors, r.warnings + res.2.2.warnings,
       (if r.did_rename then 1 else 0) + res.2.2.renames, visitedHere ++ res.2.2.visited⟩)

/-- the `for f in filenames` loop (lines 245-252) -/
def filePass (fix : Bool) (prefix_len : Nat) (relDir : Str) :
    List Str → FsEntries → (FsEntries × WalkRes)
  | [], entries => (entries, WalkRes.zero)
  | f :: rest, entries =>
    let r := check_and_maybe_fix (namesE entries) f false fix (relJoin relDir f) prefix_len
    let visitedHere := match lookupE entries f with
      | some t => [t.nodeId]
      | none => []
    let entries' := if r.did_rename then replaceE entries f r.new_basename else entries
    let res := filePass fix prefix_len relDir rest entries'
    (res.1,
      ⟨r.errors + res.2.errors, r.warnings + res.2.warnings,
       (if r.did_rename then 1 else 0) + res.2.renames, visitedHere ++ res.2.visited⟩)

def WalkRes.add (a b : WalkRes) : WalkRes :=
  ⟨a.errors + b.errors, a.warnings + b.warnings, a.renames + b.renames,
   a.visited ++ b.visited⟩

/-! one os.walk level: the body (directory loop, then file loop), then
    descent into each pending subdirectory name, resolved against the
    post-rename directory content.  `fuel` only forces termination;
    `nodeFuel`/`entriesFuel` always provide enough (proved below), so the
    zero-fuel branches are never reached from `validateRun`. -/
mutual
def walkDir (fix : Bool) (prefix_len : Nat) : Nat → Str → FsEntries → WalkRes
  | 0, _, _ => WalkRes.zero
  | fuel + 1, relDir, cs =>
    let d := dirPass fix prefix_len relDir (dirNamesE cs) cs
    let f := filePass fix prefix_len relDir (fileNamesE cs) d.1
    (d.2.2.add f.2).add (walkPend fix prefix_len fuel relDir d.2.1 f.1)
def walkPend (fix : Bool) (prefix_len : Nat) : Nat → Str → List Str → FsEntries → WalkRes
  | 0, _, _, _ => WalkRes.zero
  | _ + 1, _, [], _ => WalkRes.zero
  | fuel + 1, relDir, p :: rest, entries =>
    let here := match lookupE entries p with
      | some (.dir _ cs) => walkDir fix prefix_len fuel (relJoin relDir p) cs
      | _ => WalkRes.zero
    here.add (walkPend fix prefix_len fuel relDir rest entries)
end

/-- validate (lines 223-260) on the scanned root's content -/
def validateRun (cs : FsEntries) (fix : Bool) (prefix_len : Nat) : WalkRes :=
  walkDir fix prefix_len (1 + entriesFuel cs) [] cs

/-- `return 1 if errors > 0 else 0` (line 260) -/
def validateExit (cs : FsEntries) (fix : Bool) (prefix_len : Nat) : Nat :=
  if (validateRun cs fix prefix_len).errors > 0 then 1 else 0

/-! ### Specification predicates and concrete test inputs -/

/-- scenario tree for the walker: a directory named ~backup (renamed in
    fix mode) containing one file, next to a plain file -/
def renameScenarioTree : FsEntries :=
  .cons "~backup".toList (.dir 1 (.cons "inside.txt".toList (.file 2) .nil))
    (.cons "ok.txt".toList (.file 3) .nil)


/-- a character the rule engine has nothing against -/
def okChar (c : Char) : Prop :=
  isForbiddenChar c = false ∧ isProblematicChar c = false ∧
  isControlChar c = false ∧ isZeroWidthOrRtl c = false

/-- what holds of the name after the empty-name placeholder step -/
def MidClean (l : Str) : Prop :=
  (∀ c ∈ l, okChar c) ∧ l ≠ [] ∧
  l.getLast? ≠ some ' ' ∧ l.getLast? ≠ some '.' ∧ l.head? ≠ some '~'

/-- everything `PreClean` guarantees about `sanitize_pre`'s output -/
def PreClean (l : Str) : Prop :=
  (∀ c ∈ l, okChar c) ∧ l ≠ [] ∧
  l.getLast? ≠ some ' ' ∧ l.getLast? ≠ some '.' ∧
  l.head? ≠ some '~' ∧ is_reserved_name l = false

/-- full compliance of a name: non-empty, no error-level violation, no
    warning-level finding, and within the length limit -/
def compliantStrict (s : Str) : Bool :=
  !s.isEmpty && (has_forbidden_chars s).isEmpty && (has_problematic_chars s).isEmpty &&
  (has_control_chars s).isEmpty && (has_zero_width_or_rtl s).isEmpty &&
  !is_reserved_name s && !ends_with_space_or_dot s && !starts_with_tilde s &&
  decide (s.length ≤ MAX_NAME_LEN)

/-- truncating this 256-character name re-creates a reserved base name -/
def conTruncInput : Str := "CON.".toList ++ List.replicate 251 'a'

/-- truncating this 256-character name leaves a trailing space -/
def spaceTruncInput : Str := List.replicate 254 'a' ++ [' ', 'a']

/-- clean but over-long name: gets truncated, hence changed -/
def longCleanInput : Str := List.replicate 300 'a'

/-- truncation here cuts the root down to dots only, so the extension of
    the result differs from the preserved extension characters -/
def dotsTruncInput : Str := List.replicate 254 '.' ++ "b.c".toList

/-! ## Lemmas -/

/-! ## Lemmas: sorted sets -/

theorem insertSorted_ne_nil (c : Char) (l : List Char) : insertSorted c l ≠ [] := by
  cases l with
  | nil => simp [insertSorted]
  | cons d rest => simp only [insertSorted]; split <;> simp

theorem sortChars_eq_nil_iff (l : List Char) : sortChars l = [] ↔ l = [] := by
  cases l with
  | nil => simp [sortChars]
  | cons c rest => simp [sortChars, insertSorted_ne_nil]

theorem sortedSet_eq_nil_iff (l : List Char) : sortedSet l = [] ↔ l = [] := by
  rw [sortedSet, sortChars_eq_nil_iff, List.dedup_eq_nil]

theorem sortedSet_filter_eq_nil_iff (p : Char → Bool) (l : List Char) :
    sortedSet (l.filter p) = [] ↔ ∀ c ∈ l, ¬ p c := by
  rw [sortedSet_eq_nil_iff, List.filter_eq_nil_iff]

/-! ## Lemmas: the sanitizer's result is clean -/

theorem okChar_underscore : okChar '_' :=
  ⟨by decide, by decide, by decide, by decide⟩

theorem keepChar_some_ok {a c : Char} (h : keepChar a = some c) : okChar c := by
  unfold keepChar at h
  split at h
  · simp at h
  · split at h
    · simp at h
    · split at h
      · injection h with h; subst h; exact okChar_underscore
      · injection h with h; subst h
        rename_i h1 h2 h3
        simp only [Bool.not_eq_true] at h1 h2
        simp only [Bool.or_eq_true, not_or, Bool.not_eq_true] at h3
        exact ⟨h3.1, h3.2, h1, h2⟩

theorem okChar_of_mem_sanitize_chars {s : Str} {c : Char}
    (h : c ∈ sanitize_chars s) : okChar c := by
  rw [sanitize_chars, List.mem_filterMap] at h
  obtain ⟨a, _, ha⟩ := h
  exact keepChar_some_ok ha

theorem keepChar_eq_some_self {c : Char} (h : okChar c) : keepChar c = some c := by
  obtain ⟨h1, h2, h3, h4⟩ := h
  unfold keepChar
  rw [h3, h4, h1, h2]
  simp

theorem filterMap_keepChar_self {l : Str} (h : ∀ c ∈ l, okChar c) :
    l.filterMap keepChar = l := by
  induction l with
  | nil => rfl
  | cons c rest ih =>
    rw [List.filterMap_cons, keepChar_eq_some_self (h c (by simp))]
    rw [ih fun d hd => h d (by simp [hd])]

theorem tildeStep_ok {l : Str} (h : ∀ c ∈ l, okChar c) :
    (∀ c ∈ tildeStep l, okChar c) ∧ (tildeStep l).head? ≠ some '~' := by
  rw [tildeStep]
  by_cases ht : starts_with_tilde l = true
  · rw [if_pos ht]
    refine ⟨?_, by simp⟩
    intro c hc
    rcases List.mem_cons.mp hc with h1 | h1
    · subst h1; exact okChar_underscore
    · exact h c (List.mem_of_mem_tail h1)
  · rw [if_neg ht]
    refine ⟨h, ?_⟩
    rw [starts_with_tilde] at ht
    simpa using ht

theorem tildeStep_ne_nil {l : Str} (h : l ≠ []) : tildeStep l ≠ [] := by
  rw [tildeStep]
  split <;> simp [h]

theorem rstripSpaceDot_prefix (l : Str) : rstripSpaceDot l <+: l := by
  rw [rstripSpaceDot, ← List.reverse_suffix, List.reverse_reverse]
  exact List.dropWhile_suffix _

theorem rstripSpaceDot_getLast (l : Str) :
    (rstripSpaceDot l).getLast? ≠ some ' ' ∧ (rstripSpaceDot l).getLast? ≠ some '.' := by
  have h := List.head?_dropWhile_not (fun c => c = ' ' || c = '.') l.reverse
  rw [rstripSpaceDot, List.getLast?_reverse]
  rcases hh : (l.reverse.dropWhile fun c => c = ' ' || c = '.').head? with _ | x
  · simp
  · rw [hh] at h
    simp only [Bool.or_eq_false_iff, decide_eq_false_iff_not] at h
    simp only [ne_eq, Option.some.injEq]
    exact ⟨fun hx => h.1 hx, fun hx => h.2 hx⟩

theorem rstripSpaceDot_eq_self {l : Str}
    (h1 : l.getLast? ≠ some ' ') (h2 : l.getLast? ≠ some '.') :
    rstripSpaceDot l = l := by
  rw [rstripSpaceDot]
  rcases hr : l.reverse with _ | ⟨c, t⟩
  · rw [List.reverse_eq_nil_iff] at hr; subst hr; rfl
  · have hc : l.getLast? = some c := by
      rw [← List.head?_reverse, hr]; rfl
    rw [hc] at h1 h2
    simp only [ne_eq, Option.some.injEq] at h1 h2
    rw [List.dropWhile_cons_of_neg (by simp [h1, h2]), ← hr, List.reverse_reverse]

theorem emptyStep_ne_nil (l : Str) : emptyStep l ≠ [] := by
  rw [emptyStep]; split <;> simp_all

theorem midClean_stage {s : Str} :
    MidClean (emptyStep (rstripSpaceDot (tildeStep (sanitize_chars s)))) := by
  have hok : ∀ c ∈ sanitize_chars s, okChar c := fun c hc => okChar_of_mem_sanitize_chars hc
  obtain ⟨hok1, hhead1⟩ := tildeStep_ok hok
  set t := tildeStep (sanitize_chars s) with ht
  have hpre := rstripSpaceDot_prefix t
  have hok2 : ∀ c ∈ rstripSpaceDot t, okChar c := fun c hc => hok1 c (hpre.subset hc)
  have hlast2 := rstripSpaceDot_getLast t
  rw [emptyStep]
  split
  · exact ⟨fun c hc => by simp at hc; subst hc; exact okChar_underscore,
      by simp, by decide, by decide, by decide⟩
  · rename_i hne
    refine ⟨hok2, hne, hlast2.1, hlast2.2, ?_⟩
    -- the head of a non-empty prefix is the head of the original list
    intro hcon
    apply hhead1
    obtain ⟨u, hu⟩ := hpre
    rw [← hu, List.head?_append, hcon]
    rfl

theorem reserved_names_getLast : ∀ r ∈ RESERVED_NAMES, r.getLast? ≠ some '_' := by
  decide

theorem append_underscores_not_reserved (x : Str) :
    x ++ ['_', '_'] ∉ RESERVED_NAMES := by
  intro hmem
  have := reserved_names_getLast _ hmem
  rw [List.getLast?_append] at this
  exact this rfl

theorem upperChar_underscore : upperChar '_' = '_' := by decide

theorem reservedStep_clean {l : Str} (h : MidClean l) : PreClean (reservedStep l) := by
  obtain ⟨hok, hne, hl1, hl2, hh⟩ := h
  rw [reservedStep]
  split
  · rename_i hres
    -- base.upper() is reserved: the result is base ++ "__" ++ rest
    set base := l.takeWhile (· ≠ '.') with hbase
    have hbase_sub : base ⊆ l := (List.takeWhile_prefix _).subset
    have hbase_ne : base ≠ [] := by
      intro hb
      rw [hb] at hres
      revert hres; decide
    have hdrop : l.drop base.length = l.dropWhile (· ≠ '.') := by
      conv_lhs => rw [← List.takeWhile_append_dropWhile (fun x => decide (x ≠ '.')) l]
      exact List.drop_left' rfl
    constructor
    · -- all characters stay ok
      intro c hc
      simp only [List.append_assoc, List.mem_append] at hc
      rcases hc with hc | hc | hc
      · exact hok c (hbase_sub hc)
      · simp at hc; subst hc; exact okChar_underscore
      · exact hok c (List.drop_subset _ _ hc)
    refine ⟨by simp, ?_, ?_, ?_, ?_⟩
    · -- last character is not a space
      rw [List.append_assoc, List.getLast?_append, List.getLast?_append]
      rcases hd : (l.drop base.length).getLast? with _ | x
      · simp
      · have : l.getLast? = some x := by
          obtain ⟨u, hu⟩ := List.drop_suffix base.length l
          rw [← hu, List.getLast?_append, hd]; rfl
        simp [hd, ← this, hl1]
    · -- last character is not a dot
      rw [List.append_assoc, List.getLast?_append, List.getLast?_append]
      rcases hd : (l.drop base.length).getLast? with _ | x
      · simp
      · have : l.getLast? = some x := by
          obtain ⟨u, hu⟩ := List.drop_suffix base.length l
          rw [← hu, List.getLast?_append, hd]; rfl
        simp [hd, ← this, hl2]
    · -- head is unchanged, hence not a tilde
      intro hcon
      apply hh
      obtain ⟨u, hu⟩ : List.IsPrefix (l.takeWhile (· ≠ '.')) l := List.takeWhile_prefix _
      rw [← hbase] at hu
      rw [List.append_assoc, List.head?_append] at hcon
      rcases hb : base.head? with _ | x
      · rw [List.head?_eq_none_iff] at hb; exact absurd hb hbase_ne
      · rw [hb] at hcon
        simp only [Option.or_some, Option.some.injEq] at hcon  -- hmm check
        rw [← hu, List.head?_append, hb, hcon]; rfl
    · -- the new name is no longer reserved
      rw [is_reserved_name, decide_eq_false_iff_not]
      have hbase_p : ∀ c ∈ base, (fun x => decide (x ≠ '.')) c = true := by
        intro c hc
        rw [hbase] at hc
        have h2 := List.mem_takeWhile_imp hc
        exact h2
      have htw : (base ++ ['_', '_'] ++ l.drop base.length).takeWhile (· ≠ '.') =
          base ++ ['_', '_'] := by
        rw [List.append_assoc, List.takeWhile_append_of_pos hbase_p]
        congr 1
        rw [show (['_', '_'] ++ l.drop base.length).takeWhile (· ≠ '.') =
            '_' :: '_' :: (l.drop base.length).takeWhile (· ≠ '.') by
          simp [List.takeWhile_cons]]
        rw [hdrop]
        rcases hdw : l.dropWhile (· ≠ '.') with _ | ⟨x, xs⟩
        · simp
        · have hx := List.head?_dropWhile_not (· ≠ '.') l
          rw [hdw] at hx
          simp only [List.head?_cons] at hx
          rw [List.takeWhile_cons_of_neg (by simp_all)]
      rw [htw, List.map_append]
      have : List.map upperChar ['_', '_'] = ['_', '_'] := by decide
      rw [this]
      exact append_underscores_not_reserved _
  · rename_i hres
    exact ⟨hok, hne, hl1, hl2, hh, by rw [is_reserved_name, decide_eq_false_iff_not]; exact hres⟩

theorem sanitize_pre_clean (s : Str) : PreClean (sanitize_pre s) := by
  rw [sanitize_pre]
  exact reservedStep_clean midClean_stage

/-! ## Lemmas: splitext and the length cap -/

theorem splitext_append (p : Str) : (splitext p).1 ++ (splitext p).2 = p := by
  rw [splitext]
  split
  · simp
  · simp only
    split
    · exact List.take_append_drop _ _
    · simp

theorem splitext_shape (p : Str) :
    ∃ i, (splitext p).1 = p.take i ∧ (splitext p).2 = p.drop i := by
  rw [splitext]
  split
  · exact ⟨p.length, by simp⟩
  · simp only
    split
    · exact ⟨_, rfl, rfl⟩
    · exact ⟨p.length, by simp⟩

theorem lengthCap_eq_self {l : Str} (h : l.length ≤ MAX_NAME_LEN) : lengthCap l = l := by
  rw [lengthCap, if_neg (by omega)]

theorem lengthCap_eq_take {l : Str} (h : l.length > MAX_NAME_LEN)
    (hz : MAX_NAME_LEN - (splitext l).2.length ≠ 0) :
    lengthCap l =
      (splitext l).1.take (MAX_NAME_LEN - (splitext l).2.length) ++ (splitext l).2 := by
  rw [lengthCap, if_pos h]
  exact if_neg hz

theorem lengthCap_eq_drop {l : Str} (h : l.length > MAX_NAME_LEN)
    (hz : MAX_NAME_LEN - (splitext l).2.length = 0) :
    lengthCap l = l.drop (l.length - MAX_NAME_LEN) := by
  rw [lengthCap, if_pos h]
  exact if_pos hz

theorem splitext_length (p : Str) :
    (splitext p).1.length + (splitext p).2.length = p.length := by
  rw [← List.length_append, splitext_append]

theorem lengthCap_length (l : Str) : (lengthCap l).length ≤ MAX_NAME_LEN := by
  by_cases h : l.length > MAX_NAME_LEN
  · by_cases hz : MAX_NAME_LEN - (splitext l).2.length = 0
    · rw [lengthCap_eq_drop h hz, List.length_drop]
      omega
    · rw [lengthCap_eq_take h hz]
      have := splitext_length l
      simp only [List.length_append, List.length_take]
      omega
  · rw [lengthCap_eq_self (by omega)]
    omega

theorem lengthCap_ne_nil {l : Str} (h : l ≠ []) : lengthCap l ≠ [] := by
  by_cases hlong : l.length > MAX_NAME_LEN
  · intro hc
    have hlen := congrArg List.length hc
    simp only [List.length_nil] at hlen
    by_cases hz : MAX_NAME_LEN - (splitext l).2.length = 0
    · rw [lengthCap_eq_drop hlong hz, List.length_drop] at hlen
      have : (0:Nat) < MAX_NAME_LEN := by rw [MAX_NAME_LEN]; omega
      omega
    · rw [lengthCap_eq_take hlong hz] at hlen
      have := splitext_length l
      simp only [List.length_append, List.length_take] at hlen
      omega
  · rw [lengthCap_eq_self (by omega)]
    exact h

theorem lengthCap_subset (l : Str) : ∀ c ∈ lengthCap l, c ∈ l := by
  intro c hc
  by_cases hlong : l.length > MAX_NAME_LEN
  · by_cases hz : MAX_NAME_LEN - (splitext l).2.length = 0
    · rw [lengthCap_eq_drop hlong hz] at hc
      exact List.drop_subset _ _ hc
    · rw [lengthCap_eq_take hlong hz] at hc
      rcases List.mem_append.mp hc with hc | hc
      · have h1 := List.take_subset _ _ hc
        rw [← splitext_append l]
        exact List.mem_append.mpr (Or.inl h1)
      · rw [← splitext_append l]
        exact List.mem_append.mpr (Or.inr hc)
  · rwa [lengthCap_eq_self (by omega)] at hc

/-! ## Lemmas: compliant names are fixed points -/

theorem make_safe_name_of_clean {l : Str} (h : PreClean l)
    (hlen : l.length ≤ MAX_NAME_LEN) : make_safe_name l = l := by
  obtain ⟨hok, hne, hsp, hdot, htl, hres⟩ := h
  have h1 : sanitize_chars l = l := filterMap_keepChar_self hok
  have h2 : tildeStep l = l := by
    rw [tildeStep, if_neg]
    rw [starts_with_tilde]
    simpa using htl
  have h3 : rstripSpaceDot l = l := rstripSpaceDot_eq_self hsp hdot
  have h4 : emptyStep l = l := by rw [emptyStep, if_neg hne]
  have h5 : reservedStep l = l := by
    rw [reservedStep]
    rw [is_reserved_name, decide_eq_false_iff_not] at hres
    exact if_neg hres
  rw [make_safe_name, sanitize_pre, h1, h2, h3, h4, h5, lengthCap_eq_self hlen]

theorem checks_of_ok {l : Str} (h : ∀ c ∈ l, okChar c) :
    has_forbidden_chars l = [] ∧ has_problematic_chars l = [] ∧
    has_control_chars l = [] ∧ has_zero_width_or_rtl l = [] := by
  refine ⟨?_, ?_, ?_, ?_⟩
  · rw [has_forbidden_chars, sortedSet_filter_eq_nil_iff]
    intro c hc
    simp [(h c hc).1]
  · rw [has_problematic_chars, sortedSet_filter_eq_nil_iff]
    intro c hc
    simp [(h c hc).2.1]
  · rw [has_control_chars, sortedSet_filter_eq_nil_iff]
    intro c hc
    simp [(h c hc).2.2.1]
  · rw [has_zero_width_or_rtl, sortedSet_filter_eq_nil_iff]
    intro c hc
    simp [(h c hc).2.2.2]

theorem okChar_of_checks {l : Str} (h1 : has_forbidden_chars l = [])
    (h2 : has_problematic_chars l = []) (h3 : has_control_chars l = [])
    (h4 : has_zero_width_or_rtl l = []) : ∀ c ∈ l, okChar c := by
  rw [has_forbidden_chars, sortedSet_filter_eq_nil_iff] at h1
  rw [has_problematic_chars, sortedSet_filter_eq_nil_iff] at h2
  rw [has_control_chars, sortedSet_filter_eq_nil_iff] at h3
  rw [has_zero_width_or_rtl, sortedSet_filter_eq_nil_iff] at h4
  intro c hc
  exact ⟨Bool.not_eq_true _ ▸ h1 c hc, Bool.not_eq_true _ ▸ h2 c hc,
    Bool.not_eq_true _ ▸ h3 c hc, Bool.not_eq_true _ ▸ h4 c hc⟩

theorem preClean_of_compliant {s : Str} (h : compliantStrict s = true) :
    PreClean s ∧ s.length ≤ MAX_NAME_LEN := by
  rw [compliantStrict] at h
  simp only [Bool.and_eq_true, Bool.not_eq_true', List.isEmpty_eq_false,
    List.isEmpty_eq_true, decide_eq_true_eq] at h
  obtain ⟨⟨⟨⟨⟨⟨⟨⟨hne, hf⟩, hp⟩, hc⟩, hz⟩, hr⟩, he⟩, ht⟩, hlen⟩ := h
  have hok := okChar_of_checks hf hp hc hz
  rw [ends_with_space_or_dot, decide_eq_false_iff_not, not_or] at he
  rw [starts_with_tilde, decide_eq_false_iff_not] at ht
  exact ⟨⟨hok, hne, he.1, he.2, ht, hr⟩, hlen⟩

/-! ## Lemmas: get_unique_name returns a fresh name -/

theorem natDigits_lt {n : Nat} (h : n < 10) : natDigits n = [digitChar n] := by
  unfold natDigits
  exact dif_pos h

theorem natDigits_ge {n : Nat} (h : ¬ n < 10) :
    natDigits n = natDigits (n / 10) ++ [digitChar (n % 10)] := by
  conv_lhs => rw [natDigits]
  exact dif_neg h

theorem natDigits_ne_nil (n : Nat) : natDigits n ≠ [] := by
  by_cases h : n < 10
  · rw [natDigits_lt h]; simp
  · rw [natDigits_ge h]; simp

theorem digitChar_inj :
    ∀ a, a < 10 → ∀ b, b < 10 → digitChar a = digitChar b → a = b := by
  decide

theorem natDigits_inj : ∀ m n : Nat, natDigits m = natDigits n → m = n := by
  intro m
  induction m using Nat.strong_induction_on with
  | _ m ih =>
    intro n h
    by_cases hm : m < 10 <;> by_cases hn : n < 10
    · rw [natDigits_lt hm, natDigits_lt hn] at h
      simp only [List.cons.injEq, and_true] at h
      exact digitChar_inj m hm n hn h
    · rw [natDigits_lt hm, natDigits_ge hn] at h
      have hlen := congrArg List.length h
      have hpos : 0 < (natDigits (n / 10)).length :=
        List.length_pos.mpr (natDigits_ne_nil _)
      simp only [List.length_append, List.length_cons, List.length_nil] at hlen
      omega
    · rw [natDigits_ge hm, natDigits_lt hn] at h
      have hlen := congrArg List.length h
      have hpos : 0 < (natDigits (m / 10)).length :=
        List.length_pos.mpr (natDigits_ne_nil _)
      simp only [List.length_append, List.length_cons, List.length_nil] at hlen
      omega
    · rw [natDigits_ge hm, natDigits_ge hn] at h
      have h1 := congrArg List.reverse h
      simp only [List.reverse_append, List.reverse_cons, List.reverse_nil,
        List.nil_append, List.cons_append, List.cons.injEq] at h1
      obtain ⟨hxy, hrev⟩ := h1
      have hdigits : natDigits (m / 10) = natDigits (n / 10) := by
        have h2 := congrArg List.reverse hrev
        simpa using h2
      have hdiv : m / 10 = n / 10 :=
        ih (m / 10) (Nat.div_lt_self (by omega) (by omega)) _ hdigits
      have hmod : m % 10 = n % 10 :=
        digitChar_inj _ (Nat.mod_lt _ (by omega)) _ (Nat.mod_lt _ (by omega)) hxy
      omega

theorem uniqueCand_inj (desired : Str) : Function.Injective (uniqueCand desired) := by
  intro i j h
  rw [uniqueCand, uniqueCand] at h
  have hroot := splitext_append desired
  by_cases hi : i = 0 <;> by_cases hj : j = 0
  · omega
  · rw [if_pos hi, if_neg hj] at h
    have hlen := congrArg List.length h
    have hsum := splitext_length desired
    have hpos : 0 < (natDigits j).length := List.length_pos.mpr (natDigits_ne_nil _)
    simp only [List.length_append, List.length_cons] at hlen
    omega
  · rw [if_neg hi, if_pos hj] at h
    have hlen := congrArg List.length h
    have hsum := splitext_length desired
    have hpos : 0 < (natDigits i).length := List.length_pos.mpr (natDigits_ne_nil _)
    simp only [List.length_append, List.length_cons] at hlen
    omega
  · rw [if_neg hi, if_neg hj] at h
    have h2 := List.append_cancel_right h
    have h3 := List.append_cancel_left h2
    simp only [List.cons.injEq, true_and] at h3
    exact natDigits_inj _ _ h3

theorem exists_uniqueCand_not_mem (existing : List Str) (desired : Str) :
    ∃ j, j ≤ existing.length + 1 ∧ uniqueCand desired j ∉ existing := by
  by_contra hcon
  push_neg at hcon
  classical
  set L := (List.range (existing.length + 2)).map (uniqueCand desired) with hL
  have hnodup : L.Nodup := List.Nodup.map (uniqueCand_inj desired) (List.nodup_range _)
  have hsub : ∀ x ∈ L, x ∈ existing := by
    intro x hx
    rw [hL] at hx
    obtain ⟨j, hj, rfl⟩ := List.mem_map.mp hx
    exact hcon j (by simp at hj; omega)
  have hcard : L.toFinset.card = existing.length + 2 := by
    rw [List.toFinset_card_of_nodup hnodup, hL, List.length_map, List.length_range]
  have hle : L.toFinset.card ≤ existing.toFinset.card := by
    apply Finset.card_le_card
    intro x hx
    rw [List.mem_toFinset] at hx ⊢
    exact hsub x hx
  have := List.toFinset_card_le existing
  omega

theorem uniqueLoop_spec (existing : List Str) (desired : Str) :
    ∀ fuel i, (∃ j, i ≤ j ∧ j ≤ i + fuel ∧ uniqueCand desired j ∉ existing) →
    uniqueLoop existing (splitext desired).1 (splitext desired).2
      (uniqueCand desired i) (i + 1) fuel ∉ existing := by
  intro fuel
  induction fuel with
  | zero =>
    intro i ⟨j, h1, h2, h3⟩
    have : j = i := by omega
    subst this
    exact h3
  | succ fuel ih =>
    intro i ⟨j, h1, h2, h3⟩
    rw [uniqueLoop]
    split
    · rename_i hmem
      have hji : j ≠ i := by
        intro heq
        subst heq
        exact h3 hmem
      have hnext : uniqueCand desired (i + 1) =
          (splitext desired).1 ++ '_' :: natDigits (i + 1) ++ (splitext desired).2 := by
        rw [uniqueCand, if_neg (by omega)]
      rw [← hnext]
      exact ih (i + 1) ⟨j, by omega, by omega, h3⟩
    · rename_i hmem
      exact hmem

theorem get_unique_name_not_mem (existing : List Str) (desired : Str) :
    get_unique_name existing desired ∉ existing := by
  rw [get_unique_name]
  obtain ⟨j, hj1, hj2⟩ := exists_uniqueCand_not_mem existing desired
  have h0 : uniqueCand desired 0 = desired := by rw [uniqueCand, if_pos rfl]
  have := uniqueLoop_spec existing desired (existing.length + 1) 0 ⟨j, by omega, by omega, hj2⟩
  rw [h0] at this
  exact this

/-! ## Claim C1 -/

/-- C1 counterexample: the claim "make_safe_name(s) re-classifies clean for
every input string, and a compliant input is returned unchanged" fails as
stated.  Truncating `conTruncInput` re-creates the reserved base name CON;
truncating `spaceTruncInput` leaves a trailing space; the empty string,
`a#b` (warning only) and a 300-character clean name all pass the five
error-level checks yet are changed by the sanitizer. -/
theorem claim_C1_counterexample :
    is_reserved_name (make_safe_name conTruncInput) = true ∧
    ends_with_space_or_dot (make_safe_name spaceTruncInput) = true ∧
    (make_safe_name [] ≠ [] ∧ has_forbidden_chars [] = [] ∧
      has_control_chars [] = [] ∧ has_zero_width_or_rtl [] = [] ∧
      is_reserved_name [] = false ∧ ends_with_space_or_dot [] = false) ∧
    (make_safe_name "a#b".toList ≠ "a#b".toList ∧
      has_forbidden_chars "a#b".toList = [] ∧ has_control_chars "a#b".toList = [] ∧
      has_zero_width_or_rtl "a#b".toList = [] ∧ is_reserved_name "a#b".toList = false ∧
      ends_with_space_or_dot "a#b".toList = false) ∧
    (make_safe_name longCleanInput ≠ longCleanInput ∧
      has_forbidden_chars longCleanInput = [] ∧ has_control_chars longCleanInput = [] ∧
      has_zero_width_or_rtl longCleanInput = [] ∧
      is_reserved_name longCleanInput = false ∧
      ends_with_space_or_dot longCleanInput = false) := by
  refine ⟨by decide, by decide, ⟨by decide, by decide, by decide, by decide, by decide, by decide⟩,
    ⟨by decide, by decide, by decide, by decide, by decide, by decide⟩,
    ⟨by decide, by decide, by decide, by decide, by decide, by decide⟩⟩

/-- C1 (amended): the forbidden-character, control-character and
zero-width/bidi checks report zero violations on `make_safe_name s` for
every input; the reserved-name and trailing-space/period checks report
zero violations whenever the sanitized name needed no length truncation;
and a non-empty input that is compliant with every check (errors,
warnings and length alike) is returned unchanged. -/
theorem claim_C1_sanitizer_reclassifies_clean (s : Str) :
    has_forbidden_chars (make_safe_name s) = [] ∧
    has_control_chars (make_safe_name s) = [] ∧
    has_zero_width_or_rtl (make_safe_name s) = [] ∧
    ((sanitize_pre s).length ≤ MAX_NAME_LEN →
      is_reserved_name (make_safe_name s) = false ∧
      ends_with_space_or_dot (make_safe_name s) = false) ∧
    (compliantStrict s = true → make_safe_name s = s) := by
  have hpc := sanitize_pre_clean s
  have hok : ∀ c ∈ make_safe_name s, okChar c := by
    intro c hc
    rw [make_safe_name] at hc
    exact hpc.1 c (lengthCap_subset _ c hc)
  have hchecks := checks_of_ok hok
  refine ⟨hchecks.1, hchecks.2.2.1, hchecks.2.2.2, ?_, ?_⟩
  · intro hlen
    have heq : make_safe_name s = sanitize_pre s := by
      rw [make_safe_name, lengthCap_eq_self hlen]
    rw [heq]
    refine ⟨hpc.2.2.2.2.2, ?_⟩
    rw [ends_with_space_or_dot, decide_eq_false_iff_not, not_or]
    exact ⟨hpc.2.2.1, hpc.2.2.2.1⟩
  · intro hcomp
    obtain ⟨hclean, hlen⟩ := preClean_of_compliant hcomp
    exact make_safe_name_of_clean hclean hlen

/-- C1 witness: the amended theorem applied at the compliant name
hello.txt, both hypotheses discharged by evaluation. -/
theorem claim_C1_witness :
    (is_reserved_name (make_safe_name "hello.txt".toList) = false ∧
      ends_with_space_or_dot (make_safe_name "hello.txt".toList) = false) ∧
    make_safe_name "hello.txt".toList = "hello.txt".toList := by
  have h := claim_C1_sanitizer_reclassifies_clean "hello.txt".toList
  exact ⟨h.2.2.2.1 (by decide), h.2.2.2.2 (by decide)⟩

/-! ## Claim C3 -/

/-- C3 counterexample: sanitizing twice is not the same as sanitizing
once.  For the 256-character name `spaceTruncInput` the length cap leaves
a trailing space that the second pass strips. -/
theorem claim_C3_counterexample :
    make_safe_name (make_safe_name spaceTruncInput) ≠ make_safe_name spaceTruncInput := by
  decide

/-- C3 (amended): whenever the sanitized name needs no length truncation
(its pre-truncation form is within the maximum component length),
make_safe_name (make_safe_name s) = make_safe_name s. -/
theorem claim_C3_fixed_point (s : Str)
    (h : (sanitize_pre s).length ≤ MAX_NAME_LEN) :
    make_safe_name (make_safe_name s) = make_safe_name s := by
  have hpre := sanitize_pre_clean s
  have h1 : make_safe_name s = sanitize_pre s := by
    rw [make_safe_name, lengthCap_eq_self h]
  rw [h1, make_safe_name_of_clean hpre h]

/-- C3 witness: the amended fixed-point theorem at My File#1.txt. -/
theorem claim_C3_witness :
    make_safe_name (make_safe_name "My File#1.txt".toList) =
      make_safe_name "My File#1.txt".toList :=
  claim_C3_fixed_point "My File#1.txt".toList (by decide)

/-! ## Claim C4 -/

/-- C4 counterexample: the claim "the result's extension equals the
input's extension whenever the input's extension alone is at most the
maximum" fails: for `a.b?c` the extension `.b?c` (length 4) is itself
rewritten to `.b_c`.  Moreover even the sanitized (pre-truncation) name's
extension is not always the extension of the result: for `dotsTruncInput`
truncation leaves only dots in front of the kept extension characters, and
the result's extension is empty. -/
theorem claim_C4_counterexample :
    ((splitext "a.b?c".toList).2.length ≤ MAX_NAME_LEN ∧
      (splitext (make_safe_name "a.b?c".toList)).2 ≠ (splitext "a.b?c".toList).2) ∧
    (splitext (make_safe_name dotsTruncInput)).2 ≠ (splitext (sanitize_pre dotsTruncInput)).2 := by
  refine ⟨⟨by decide, by decide⟩, by decide⟩

/-- C4 (amended): the result of make_safe_name is never longer than the
maximum component length, and the extension of the sanitized
(pre-truncation) name survives as a suffix of the result whenever that
extension alone is shorter than the maximum. -/
theorem claim_C4_length_and_extension (s : Str) :
    (make_safe_name s).length ≤ MAX_NAME_LEN ∧
    ((splitext (sanitize_pre s)).2.length < MAX_NAME_LEN →
      (splitext (sanitize_pre s)).2 <:+ make_safe_name s) := by
  constructor
  · rw [make_safe_name]
    exact lengthCap_length _
  · intro hext
    rw [make_safe_name]
    by_cases hlong : (sanitize_pre s).length > MAX_NAME_LEN
    · rw [lengthCap_eq_take hlong (by omega)]
      exact List.suffix_append _ _
    · rw [lengthCap_eq_self (by omega)]
      conv_rhs => rw [← splitext_append (sanitize_pre s)]
      exact List.suffix_append _ _

/-- C4 witness: the amended theorem at a.b?c, hypothesis discharged by
evaluation. -/
theorem claim_C4_witness :
    (make_safe_name "a.b?c".toList).length ≤ MAX_NAME_LEN ∧
    (splitext (sanitize_pre "a.b?c".toList)).2 <:+ make_safe_name "a.b?c".toList := by
  have h := claim_C4_length_and_extension "a.b?c".toList
  exact ⟨h.1, h.2 (by decide)⟩

/-! ## Claim C8 -/

/-- C8: CON.txt is classified as a reserved device name (the portion
before the first period matches CON case-insensitively), and the
sanitizer maps it to CON__.txt by inserting a double underscore directly
after that portion. -/
theorem claim_C8_con_txt :
    is_reserved_name "CON.txt".toList = true ∧
    make_safe_name "CON.txt".toList = "CON__.txt".toList := by
  exact ⟨by decide, by decide⟩

/-! ## Claim C10 -/

/-- C10: make_safe_name returns a non-empty string on every input,
including the empty string and strings consisting only of removed or
stripped characters. -/
theorem claim_C10_nonempty (s : Str) : make_safe_name s ≠ [] := by
  rw [make_safe_name]
  exact lengthCap_ne_nil (sanitize_pre_clean s).2.1

/-! ## Lemmas: check_and_maybe_fix -/

theorem iteTrueElse (c : Prop) [Decidable c] (b : Bool) :
    (if c then true else b) = (b || decide c) := by
  split <;> simp_all

theorem iteOrElse (c : Prop) [Decidable c] (f b : Bool) :
    (if c then (b || f) else b) = (b || f && decide c) := by
  split <;> simp_all

theorem iteAddGe (c : Prop) [Decidable c] (e : Nat) : e ≤ if c then e + 1 else e := by
  split <;> omega

theorem decideEqTrue (b : Bool) : decide (b = true) = b := by
  cases b <;> simp

theorem iteBoolTrueFalse (a : Bool) (g : Prop) [Decidable g] :
    (if a then (if g then true else false) else false) = (a && decide g) := by
  cases a <;> split <;> simp_all

theorem iteNestedAnd {α : Type} (a : Bool) (g : Prop) [Decidable g] (u b : α) :
    (if a then (if g then u else b) else b) = (if (a && decide g) = true then u else b) := by
  cases a <;> split <;> simp_all

theorem check_rename_needed_eq (existing : List Str) (basename : Str)
    (d fix : Bool) (rel_path : Str) (prefix_len : Nat) :
    (check_and_maybe_fix existing basename d fix rel_path prefix_len).rename_needed =
      rename_needed_spec basename fix := by
  simp only [check_and_maybe_fix, apply_ite CheckResult.rename_needed, ite_self]
  simp only [iteTrueElse, iteOrElse, Bool.false_or, decideEqTrue]
  rfl

theorem check_did_rename_eq (existing : List Str) (basename : Str)
    (d fix : Bool) (rel_path : Str) (prefix_len : Nat) :
    (check_and_maybe_fix existing basename d fix rel_path prefix_len).did_rename =
      did_rename_spec existing basename fix := by
  have hrn := check_rename_needed_eq existing basename d fix rel_path prefix_len
  simp only [check_and_maybe_fix, apply_ite CheckResult.rename_needed, ite_self] at hrn
  simp only [check_and_maybe_fix, apply_ite CheckResult.did_rename, ite_self]
  rw [did_rename_spec, ← hrn, iteBoolTrueFalse]

theorem check_new_basename_eq (existing : List Str) (basename : Str)
    (d fix : Bool) (rel_path : Str) (prefix_len : Nat) :
    (check_and_maybe_fix existing basename d fix rel_path prefix_len).new_basename =
      new_basename_spec existing basename fix := by
  have hrn := check_rename_needed_eq existing basename d fix rel_path prefix_len
  simp only [check_and_maybe_fix, apply_ite CheckResult.rename_needed, ite_self] at hrn
  simp only [check_and_maybe_fix, apply_ite CheckResult.new_basename, ite_self]
  rw [new_basename_spec, did_rename_spec, ← hrn, iteNestedAnd]

theorem check_renameCall_eq (existing : List Str) (basename : Str)
    (d fix : Bool) (rel_path : Str) (prefix_len : Nat) :
    (check_and_maybe_fix existing basename d fix rel_path prefix_len).renameCall =
      renameCall_spec existing basename fix := by
  have hrn := check_rename_needed_eq existing basename d fix rel_path prefix_len
  simp only [check_and_maybe_fix, apply_ite CheckResult.rename_needed, ite_self] at hrn
  simp only [check_and_maybe_fix, apply_ite CheckResult.renameCall, ite_self]
  rw [renameCall_spec, did_rename_spec, ← hrn, iteNestedAnd]

/-! ## Claim C6 -/

/-- C6 counterexample: an entry whose only violation is the total
effective path length (basename a, prefix length 400) contributes an
error, yet the classification rename-needed flag stays false — contrary
to the claim that any error-level category (including the
total-effective-path-length error) sets it. -/
theorem claim_C6_counterexample :
    (check_and_maybe_fix [] "a".toList true true "a".toList 400).errors = 1 ∧
    (check_and_maybe_fix [] "a".toList true true "a".toList 400).rename_needed = false := by
  exact ⟨by decide, by decide⟩

/-- C6 (amended): the rename-needed flag is true exactly when an
error-level category other than the total-effective-path-length check
fired (name too long, forbidden characters, trailing space/period,
reserved name, control characters, zero-width/bidi characters) or, in fix
mode, a fix-escalated category fired (discouraged characters, leading
tilde).  The path-length check never contributes to it. -/
theorem claim_C6_rename_needed_flag (existing : List Str) (basename : Str)
    (d fix : Bool) (rel_path : Str) (prefix_len : Nat) :
    (check_and_maybe_fix existing basename d fix rel_path prefix_len).rename_needed =
      (decide (basename.length > MAX_NAME_LEN) ||
       decide (has_forbidden_chars basename ≠ []) ||
       ends_with_space_or_dot basename ||
       is_reserved_name basename ||
       decide (has_control_chars basename ≠ []) ||
       decide (has_zero_width_or_rtl basename ≠ []) ||
       fix && decide (has_problematic_chars basename ≠ []) ||
       fix && starts_with_tilde basename) :=
  check_rename_needed_eq existing basename d fix rel_path prefix_len

/-! ## Claim C7 -/

/-- C7: with the fix flag false, processing an entry performs no
filesystem mutation: no rename call is recorded, the returned base name
is the input base name, did_rename is false, and the rename counter
contribution is zero — for every entry. -/
theorem claim_C7_no_fix_no_mutation (existing : List Str) (basename : Str)
    (d : Bool) (rel_path : Str) (prefix_len : Nat) :
    (check_and_maybe_fix existing basename d false rel_path prefix_len).new_basename = basename ∧
    (check_and_maybe_fix existing basename d false rel_path prefix_len).did_rename = false ∧
    (check_and_maybe_fix existing basename d false rel_path prefix_len).renameCall = none ∧
    (if (check_and_maybe_fix existing basename d false rel_path prefix_len).did_rename
      then 1 else 0) = 0 := by
  exact ⟨rfl, rfl, rfl, rfl⟩

/-! ## Claim C9 -/

/-- C9: if the collision-resolved candidate equals the entry's original
base name, no rename call is made, did_rename is false, the returned
base name is the original, and the walker's rename counter contribution
(if did_rename then 1 else 0) is zero. -/
theorem claim_C9_identity_candidate_no_rename (existing : List Str) (basename : Str)
    (d fix : Bool) (rel_path : Str) (prefix_len : Nat)
    (hu : get_unique_name existing (make_safe_name basename) = basename) :
    (check_and_maybe_fix existing basename d fix rel_path prefix_len).renameCall = none ∧
    (check_and_maybe_fix existing basename d fix rel_path prefix_len).did_rename = false ∧
    (check_and_maybe_fix existing basename d fix rel_path prefix_len).new_basename = basename ∧
    (if (check_and_maybe_fix existing basename d fix rel_path prefix_len).did_rename
      then 1 else 0) = 0 := by
  have hd : did_rename_spec existing basename fix = false := by
    rw [did_rename_spec, hu]
    simp
  refine ⟨?_, ?_, ?_, ?_⟩
  · rw [check_renameCall_eq, renameCall_spec, hd]
    rfl
  · rw [check_did_rename_eq, hd]
  · rw [check_new_basename_eq, new_basename_spec, hd]
    rfl
  · rw [check_did_rename_eq, hd]
    rfl

/-- C9 witness: with an empty directory and the already-safe name ab, the
collision-resolved candidate is ab itself; the theorem applies and no
rename happens even in fix mode. -/
theorem claim_C9_witness :
    (check_and_maybe_fix [] "ab".toList false true "ab".toList 0).renameCall = none ∧
    (check_and_maybe_fix [] "ab".toList false true "ab".toList 0).did_rename = false ∧
    (check_and_maybe_fix [] "ab".toList false true "ab".toList 0).new_basename = "ab".toList ∧
    (if (check_and_maybe_fix [] "ab".toList false true "ab".toList 0).did_rename
      then 1 else 0) = 0 :=
  claim_C9_identity_candidate_no_rename [] "ab".toList false true "ab".toList 0 (by decide)

/-! ## Claim C5 -/

/-- C5: an entry whose effective path length exceeds the maximum is
counted as an error; the path-length check never influences the rename
decision (the rename-related outputs are identical for any relative path
and prefix length, in particular they are what they would be with no
path violation); and any positive error total makes the run's outcome 1
even in fix mode. -/
theorem claim_C5_path_length_report_only (existing : List Str) (basename : Str)
    (d fix : Bool) (rel_path : Str) (prefix_len : Nat)
    (hlong : prefix_len + rel_path.length > MAX_PATH_LEN) :
    1 ≤ (check_and_maybe_fix existing basename d fix rel_path prefix_len).errors ∧
    (∀ (rel2 : Str) (prefix2 : Nat),
      (check_and_maybe_fix existing basename d fix rel_path prefix_len).rename_needed =
        (check_and_maybe_fix existing basename d fix rel2 prefix2).rename_needed ∧
      (check_and_maybe_fix existing basename d fix rel_path prefix_len).did_rename =
        (check_and_maybe_fix existing basename d fix rel2 prefix2).did_rename ∧
      (check_and_maybe_fix existing basename d fix rel_path prefix_len).new_basename =
        (check_and_maybe_fix existing basename d fix rel2 prefix2).new_basename ∧
      (check_and_maybe_fix existing basename d fix rel_path prefix_len).renameCall =
        (check_and_maybe_fix existing basename d fix rel2 prefix2).renameCall) ∧
    (∀ (cs : FsEntries) (fx : Bool) (pl : Nat),
      (validateRun cs fx pl).errors > 0 → validateExit cs fx pl = 1) := by
  refine ⟨?_, ?_, ?_⟩
  · simp only [check_and_maybe_fix, apply_ite CheckResult.errors, ite_self]
    refine le_trans ?_ (iteAddGe _ _)
    refine le_trans ?_ (iteAddGe _ _)
    refine le_trans ?_ (iteAddGe _ _)
    refine le_trans ?_ (iteAddGe _ _)
    refine le_trans ?_ (iteAddGe _ _)
    refine le_trans ?_ (iteAddGe _ _)
    rw [if_pos hlong]
  · intro rel2 prefix2
    rw [check_rename_needed_eq, check_rename_needed_eq,
      check_did_rename_eq, check_did_rename_eq,
      check_new_basename_eq, check_new_basename_eq,
      check_renameCall_eq, check_renameCall_eq]
    exact ⟨rfl, rfl, rfl, rfl⟩
  · intro cs fx pl h
    rw [validateExit, if_pos h]

/-- C5 witness: a concrete oversized effective path (prefix 398 plus the
3-character path abc) is an error, the rename decision agrees with the
same entry at prefix 0, and a run containing a path-length violation
(prefix 400) exits 1 in fix mode. -/
theorem claim_C5_witness :
    (1 ≤ (check_and_maybe_fix [] "a".toList false true "abc".toList 398).errors ∧
      (check_and_maybe_fix [] "a".toList false true "abc".toList 398).did_rename =
        (check_and_maybe_fix [] "a".toList false true "abc".toList 0).did_rename) ∧
    validateExit (.cons "a".toList (.file 1) .nil) true 400 = 1 := by
  have h := claim_C5_path_length_report_only [] "a".toList false true "abc".toList 398 (by decide)
  exact ⟨⟨h.1, (h.2.1 "abc".toList 0).2.1⟩,
    h.2.2 (.cons "a".toList (.file 1) .nil) true 400 (by decide)⟩

/-! ## Lemmas: directory entry lists -/

theorem lookupE_mem : ∀ (E : FsEntries) (q : Str) (t : FsNode),
    lookupE E q = some t → q ∈ namesE E
  | .nil, q, t, h => by simp [lookupE] at h
  | .cons n t' rest, q, t, h => by
    simp only [lookupE] at h
    simp only [namesE, List.mem_cons]
    by_cases hn : n = q
    · exact Or.inl hn.symm
    · rw [if_neg hn] at h
      exact Or.inr (lookupE_mem rest q t h)

theorem lookupE_replaceE_of_ne : ∀ (E : FsEntries) (old new q : Str),
    q ≠ old → q ≠ new → lookupE (replaceE E old new) q = lookupE E q
  | .nil, _, _, _, _, _ => rfl
  | .cons n t rest, old, new, q, h1, h2 => by
    simp only [replaceE]
    by_cases hn : n = old
    · rw [if_pos hn]
      simp only [lookupE]
      rw [if_neg (fun hc => h2 hc.symm), if_neg (fun hc : n = q => h1 (hc ▸ hn ▸ rfl))]
    · rw [if_neg hn]
      simp only [lookupE]
      by_cases hq : n = q
      · rw [if_pos hq, if_pos hq]
      · rw [if_neg hq, if_neg hq]
        exact lookupE_replaceE_of_ne rest old new q h1 h2

theorem lookupE_replaceE_self : ∀ (E : FsEntries) (old new : Str) (t : FsNode),
    lookupE E old = some t → new ∉ namesE E →
    lookupE (replaceE E old new) new = some t
  | .nil, old, new, t, h, _ => by simp [lookupE] at h
  | .cons n t' rest, old, new, t, h, hnm => by
    simp only [namesE, List.mem_cons, not_or] at hnm
    simp only [lookupE] at h
    simp only [replaceE]
    by_cases hn : n = old
    · rw [if_pos hn] at h ⊢
      simp only [lookupE, if_pos rfl]
      exact h
    · rw [if_neg hn] at h ⊢
      simp only [lookupE]
      rw [if_neg (fun hc : n = new => hnm.1 hc.symm)]
      exact lookupE_replaceE_self rest old new t h hnm.2

theorem namesE_replaceE_mem : ∀ (E : FsEntries) (old new q : Str),
    q ∈ namesE (replaceE E old new) → q ∈ namesE E ∨ q = new
  | .nil, _, _, _, h => by simp [replaceE, namesE] at h
  | .cons n t rest, old, new, q, h => by
    simp only [replaceE] at h
    by_cases hn : n = old
    · rw [if_pos hn] at h
      simp only [namesE, List.mem_cons] at h
      rcases h with h | h
      · exact Or.inr h
      · exact Or.inl (by simp [namesE, h])
    · rw [if_neg hn] at h
      simp only [namesE, List.mem_cons] at h
      rcases h with h | h
      · exact Or.inl (by simp [namesE, h])
      · rcases namesE_replaceE_mem rest old new q h with h2 | h2
        · exact Or.inl (by simp [namesE, h2])
        · exact Or.inr h2

theorem namesE_replaceE_mem_of_ne : ∀ (E : FsEntries) (old new q : Str),
    q ∈ namesE E → q ≠ old → q ∈ namesE (replaceE E old new)
  | .nil, _, _, _, h, _ => by simp [namesE] at h
  | .cons n t rest, old, new, q, h, hne => by
    simp only [namesE, List.mem_cons] at h
    simp only [replaceE]
    by_cases hn : n = old
    · rw [if_pos hn]
      simp only [namesE, List.mem_cons]
      rcases h with h | h
      · exact absurd (h ▸ hn) hne
      · exact Or.inr h
    · rw [if_neg hn]
      simp only [namesE, List.mem_cons]
      rcases h with h | h
      · exact Or.inl h
      · exact Or.inr (namesE_replaceE_mem_of_ne rest old new q h hne)

theorem namesE_replaceE_nodup : ∀ (E : FsEntries) (old new : Str),
    (namesE E).Nodup → new ∉ namesE E → (namesE (replaceE E old new)).Nodup
  | .nil, _, _, _, _ => by simp [replaceE, namesE]
  | .cons n t rest, old, new, hnd, hnm => by
    simp only [namesE, List.nodup_cons] at hnd
    simp only [namesE, List.mem_cons, not_or] at hnm
    simp only [replaceE]
    by_cases hn : n = old
    · rw [if_pos hn]
      simp only [namesE, List.nodup_cons]
      exact ⟨hnm.2, hnd.2⟩
    · rw [if_neg hn]
      simp only [namesE, List.nodup_cons]
      refine ⟨?_, namesE_replaceE_nodup rest old new hnd.2 hnm.2⟩
      intro hc
      rcases namesE_replaceE_mem rest old new n hc with h2 | h2
      · exact hnd.1 h2
      · exact hnm.1 h2.symm

theorem dirNamesE_sublist : ∀ (E : FsEntries), List.Sublist (dirNamesE E) (namesE E)
  | .nil => by simp [dirNamesE, namesE]
  | .cons n t rest => by
    simp only [dirNamesE, namesE]
    split
    · exact (dirNamesE_sublist rest).cons₂ n
    · exact (dirNamesE_sublist rest).cons n

theorem fileNamesE_sublist : ∀ (E : FsEntries), List.Sublist (fileNamesE E) (namesE E)
  | .nil => by simp [fileNamesE, namesE]
  | .cons n t rest => by
    simp only [fileNamesE, namesE]
    split
    · exact (fileNamesE_sublist rest).cons n
    · exact (fileNamesE_sublist rest).cons₂ n

theorem dirNodesE_isDir : ∀ (E : FsEntries), ∀ t ∈ dirNodesE E, t.isDirNode = true
  | .nil => by simp [dirNodesE]
  | .cons n t rest => by
    simp only [dirNodesE]
    split
    · rename_i hd
      intro u hu
      rcases List.mem_cons.mp hu with rfl | hu
      · exact hd
      · exact dirNodesE_isDir rest u hu
    · exact dirNodesE_isDir rest

theorem fileNodesE_isDir : ∀ (E : FsEntries), ∀ t ∈ fileNodesE E, t.isDirNode = false
  | .nil => by simp [fileNodesE]
  | .cons n t rest => by
    simp only [fileNodesE]
    split
    · exact fileNodesE_isDir rest
    · rename_i hd
      intro u hu
      rcases List.mem_cons.mp hu with rfl | hu
      · exact Bool.not_eq_true _ ▸ hd
      · exact fileNodesE_isDir rest u hu

theorem wfE_dirNodes : ∀ (E : FsEntries), wfE E = true → ∀ t ∈ dirNodesE E, wfN t = true
  | .nil => by simp [dirNodesE]
  | .cons n t rest => by
    simp only [wfE, Bool.and_eq_true]
    intro h
    simp only [dirNodesE]
    split
    · intro u hu
      rcases List.mem_cons.mp hu with rfl | hu
      · exact h.1
      · exact wfE_dirNodes rest h.2 u hu
    · exact wfE_dirNodes rest h.2

theorem forall2_mem_left {α β : Type} {R : α → β → Prop} {as : List α} {bs : List β}
    (h : List.Forall₂ R as bs) : ∀ {a}, a ∈ as → ∃ b, b ∈ bs ∧ R a b := by
  induction h with
  | nil => intro a ha; simp at ha
  | cons hr htail ih =>
    intro a ha
    rcases List.mem_cons.mp ha with rfl | ha
    · exact ⟨_, by simp, hr⟩
    · obtain ⟨b, hb, hrb⟩ := ih ha
      exact ⟨b, by simp [hb], hrb⟩

theorem forall2_lookup_congr {E E' : FsEntries} {S : List Str} {ns : List FsNode}
    (h : List.Forall₂ (fun d t => lookupE E d = some t) S ns)
    (hcong : ∀ d ∈ S, lookupE E' d = lookupE E d) :
    List.Forall₂ (fun d t => lookupE E' d = some t) S ns := by
  induction h with
  | nil => exact .nil
  | cons hr htail ih =>
    refine .cons ?_ (ih fun d hd => hcong d (by simp [hd]))
    rw [hcong _ (by simp)]
    exact hr

theorem forall2_dir_lookup : ∀ (E : FsEntries), (namesE E).Nodup →
    List.Forall₂ (fun d t => lookupE E d = some t) (dirNamesE E) (dirNodesE E)
  | .nil, _ => by simp only [dirNamesE, dirNodesE]; exact .nil
  | .cons n t rest, hnd => by
    simp only [namesE, List.nodup_cons] at hnd
    have lift : List.Forall₂ (fun d u => lookupE (FsEntries.cons n t rest) d = some u)
        (dirNamesE rest) (dirNodesE rest) := forall2_lookup_congr
      (forall2_dir_lookup rest hnd.2) (fun d hd => by
        simp only [lookupE]
        rw [if_neg]
        intro hc
        subst hc
        exact hnd.1 ((dirNamesE_sublist rest).subset hd))
    simp only [dirNamesE, dirNodesE]
    split
    · exact .cons (by simp [lookupE]) lift
    · exact lift

theorem forall2_file_lookup : ∀ (E : FsEntries), (namesE E).Nodup →
    List.Forall₂ (fun d t => lookupE E d = some t) (fileNamesE E) (fileNodesE E)
  | .nil, _ => by simp only [fileNamesE, fileNodesE]; exact .nil
  | .cons n t rest, hnd => by
    simp only [namesE, List.nodup_cons] at hnd
    have lift : List.Forall₂ (fun d u => lookupE (FsEntries.cons n t rest) d = some u)
        (fileNamesE rest) (fileNodesE rest) := forall2_lookup_congr
      (forall2_file_lookup rest hnd.2) (fun d hd => by
        simp only [lookupE]
        rw [if_neg]
        intro hc
        subst hc
        exact hnd.1 ((fileNamesE_sublist rest).subset hd))
    simp only [fileNamesE, fileNodesE]
    split
    · exact lift
    · exact .cons (by simp [lookupE]) lift

theorem pendFuelL_le : ∀ (E : FsEntries), pendFuelL (dirNodesE E) ≤ entriesFuel E
  | .nil => by simp [dirNodesE, pendFuelL, entriesFuel]
  | .cons n t rest => by
    simp only [dirNodesE, entriesFuel]
    split
    · simp only [pendFuelL]
      have := pendFuelL_le rest
      omega
    · have := pendFuelL_le rest
      omega

/-! ## Lemmas: the directory and file loops -/

theorem dirPass_tail_spec (fix : Bool) (p : Nat) (rel : Str)
    (d new : Str) (rest : List Str) (t : FsNode) (ts : List FsNode)
    (E E' : FsEntries)
    (hlk : lookupE E d = some t)
    (hfa' : List.Forall₂ (fun q u => lookupE E q = some u) rest ts)
    (hSne : d ∉ rest) (hSnd : rest.Nodup)
    (hnd' : (namesE E').Nodup)
    (hnewE' : lookupE E' new = some t)
    (hnew_or : new = d ∨ new ∉ namesE E)
    (hpres : ∀ q, q ≠ d → q ≠ new → lookupE E' q = lookupE E q)
    (hmem' : ∀ q, q ∈ namesE E → q ≠ d → q ∈ namesE E')
    (ih : ∀ (nodes : List FsNode) (E₀ : FsEntries),
      (namesE E₀).Nodup → rest.Nodup →
      List.Forall₂ (fun q u => lookupE E₀ q = some u) rest nodes →
      (namesE (dirPass fix p rel rest E₀).1).Nodup ∧
      List.Forall₂ (fun q u => lookupE (dirPass fix p rel rest E₀).1 q = some u)
        (dirPass fix p rel rest E₀).2.1 nodes ∧
      (dirPass fix p rel rest E₀).2.2.visited = nodes.map FsNode.nodeId ∧
      (∀ q, q ∈ namesE E₀ → q ∉ rest →
        lookupE (dirPass fix p rel rest E₀).1 q = lookupE E₀ q)) :
    (namesE (dirPass fix p rel rest E').1).Nodup ∧
    List.Forall₂ (fun q u => lookupE (dirPass fix p rel rest E').1 q = some u)
      (new :: (dirPass fix p rel rest E').2.1) (t :: ts) ∧
    (match lookupE E d with
      | some u => [u.nodeId]
      | none => []) ++ (dirPass fix p rel rest E').2.2.visited =
        (t :: ts).map FsNode.nodeId ∧
    (∀ q, q ∈ namesE E → q ∉ d :: rest →
      lookupE (dirPass fix p rel rest E').1 q = lookupE E q) := by
  have hrest_names : ∀ q ∈ rest, q ∈ namesE E := fun q hq => by
    obtain ⟨u, _, hl⟩ := forall2_mem_left hfa' hq
    exact lookupE_mem _ _ _ hl
  have hnew_notin_rest : new ∉ rest := by
    rcases hnew_or with rfl | hfresh
    · exact hSne
    · exact fun hc => hfresh (hrest_names _ hc)
  have hfa'' : List.Forall₂ (fun q u => lookupE E' q = some u) rest ts :=
    forall2_lookup_congr hfa' (fun q hq => by
      refine hpres q (fun hc => hSne (hc ▸ hq)) ?_
      rcases hnew_or with rfl | hfresh
      · exact fun hc => hSne (hc ▸ hq)
      · exact fun hc => hfresh (hc ▸ hrest_names q hq))
  obtain ⟨C1, C2, C3, C4⟩ := ih ts E' hnd' hSnd hfa''
  refine ⟨C1, ?_, ?_, ?_⟩
  · refine .cons ?_ C2
    rw [C4 new (lookupE_mem _ _ _ hnewE') hnew_notin_rest]
    exact hnewE'
  · simp only [hlk, C3, List.map_cons, List.singleton_append]
  · intro q hq hq2
    simp only [List.mem_cons, not_or] at hq2
    rw [C4 q (hmem' q hq hq2.1) hq2.2]
    refine hpres q hq2.1 (fun hc => ?_)
    rcases hnew_or with rfl | hfresh
    · exact hq2.1 hc
    · exact hfresh (hc ▸ hq)

theorem dirPass_spec (fix : Bool) (p : Nat) (rel : Str) :
    ∀ (S : List Str) (nodes : List FsNode) (E : FsEntries),
    (namesE E).Nodup → S.Nodup →
    List.Forall₂ (fun q u => lookupE E q = some u) S nodes →
    (namesE (dirPass fix p rel S E).1).Nodup ∧
    List.Forall₂ (fun q u => lookupE (dirPass fix p rel S E).1 q = some u)
      (dirPass fix p rel S E).2.1 nodes ∧
    (dirPass fix p rel S E).2.2.visited = nodes.map FsNode.nodeId ∧
    (∀ q, q ∈ namesE E → q ∉ S →
      lookupE (dirPass fix p rel S E).1 q = lookupE E q) := by
  intro S
  induction S with
  | nil =>
    intro nodes E hnd _ hfa
    cases hfa
    exact ⟨hnd, .nil, rfl, fun q _ _ => rfl⟩
  | cons d rest ih =>
    intro nodes E hnd hS hfa
    cases hfa with
    | cons hlk hfa' =>
      rename_i t ts
      have hSp := List.nodup_cons.mp hS
      by_cases hdid : did_rename_spec (namesE E) d fix = true
      · have hdr : (check_and_maybe_fix (namesE E) d true fix (relJoin rel d) p).did_rename
            = true := by
          rw [check_did_rename_eq]; exact hdid
        have hnb : (check_and_maybe_fix (namesE E) d true fix (relJoin rel d) p).new_basename
            = get_unique_name (namesE E) (make_safe_name d) := by
          rw [check_new_basename_eq, new_basename_spec, if_pos hdid]
        have hfresh :
            (check_and_maybe_fix (namesE E) d true fix (relJoin rel d) p).new_basename
              ∉ namesE E := by
          rw [hnb]; exact get_unique_name_not_mem _ _
        simp only [dirPass, hdr, if_true]
        exact dirPass_tail_spec fix p rel d _ rest t ts E _ hlk hfa' hSp.1 hSp.2
          (namesE_replaceE_nodup E d _ hnd hfresh)
          (lookupE_replaceE_self E d _ t hlk hfresh)
          (Or.inr hfresh)
          (fun q h1 h2 => lookupE_replaceE_of_ne E d _ q h1 h2)
          (fun q hq hne => namesE_replaceE_mem_of_ne E d _ q hq hne)
          ih
      · have hdr : (check_and_maybe_fix (namesE E) d true fix (relJoin rel d) p).did_rename
            = false := by
          rw [check_did_rename_eq]
          exact Bool.not_eq_true _ ▸ hdid
        have hnb : (check_and_maybe_fix (namesE E) d true fix (relJoin rel d) p).new_basename
            = d := by
          rw [check_new_basename_eq, new_basename_spec, if_neg]
          intro hc
          exact hdid hc
        simp only [dirPass, hdr, Bool.false_eq_true, if_false]
        exact dirPass_tail_spec fix p rel d _ rest t ts E E hlk hfa' hSp.1 hSp.2
          hnd (by rw [hnb]; exact hlk) (Or.inl hnb)
          (fun q _ _ => rfl)
          (fun q hq _ => hq)
          ih

theorem filePass_eq_dirPass (fix : Bool) (p : Nat) (rel : Str) :
    ∀ (S : List Str) (E : FsEntries),
    filePass fix p rel S E = ((dirPass fix p rel S E).1, (dirPass fix p rel S E).2.2)
  | [], E => rfl
  | f :: rest, E => by
    simp only [filePass, dirPass]
    rw [filePass_eq_dirPass fix p rel rest]
    rfl

theorem file_not_dir_name (cs : FsEntries) (hnd : (namesE cs).Nodup) :
    ∀ f ∈ fileNamesE cs, f ∉ dirNamesE cs := by
  intro f hf hd
  obtain ⟨u, hu, hlu⟩ := forall2_mem_left (forall2_file_lookup cs hnd) hf
  obtain ⟨v, hv, hlv⟩ := forall2_mem_left (forall2_dir_lookup cs hnd) hd
  have huv : u = v := by rw [hlu] at hlv; exact Option.some.inj hlv
  subst huv
  have h1 := fileNodesE_isDir cs u hu
  have h2 := dirNodesE_isDir cs u hv
  rw [h1] at h2
  exact Bool.false_ne_true h2

theorem expectedSubs_eq : ∀ cs : FsEntries,
    expectedSubs cs = (dirNodesE cs).flatMap expectedN
  | .nil => rfl
  | .cons n t rest => by
    simp only [expectedSubs, dirNodesE]
    split
    · simp only [List.flatMap_cons, expectedSubs_eq rest]
    · simp only [List.nil_append, expectedSubs_eq rest]

theorem walk_spec (fix : Bool) (p : Nat) :
    ∀ fuel : Nat,
    (∀ (rel : Str) (cs : FsEntries),
      (namesE cs).Nodup → wfE cs = true → 1 + entriesFuel cs ≤ fuel →
      (walkDir fix p fuel rel cs).visited =
        (dirNodesE cs).map FsNode.nodeId ++ (fileNodesE cs).map FsNode.nodeId
          ++ expectedSubs cs) ∧
    (∀ (rel : Str) (pending : List Str) (nodes : List FsNode) (entries : FsEntries),
      List.Forall₂ (fun q u => lookupE entries q = some u) pending nodes →
      (∀ u ∈ nodes, u.isDirNode = true ∧ wfN u = true) →
      pendFuelL nodes ≤ fuel →
      (walkPend fix p fuel rel pending entries).visited = nodes.flatMap expectedN) := by
  intro fuel
  induction fuel with
  | zero =>
    constructor
    · intro rel cs _ _ hf
      omega
    · intro rel pending nodes entries hfa _ hf
      cases hfa with
      | nil => rfl
      | cons h1 h2 =>
        rw [pendFuelL] at hf
        omega
  | succ fuel ihp =>
    obtain ⟨ihDir, ihPend⟩ := ihp
    constructor
    · intro rel cs hnd hwf hf
      obtain ⟨D1, D2, D3, D4⟩ := dirPass_spec fix p rel (dirNamesE cs) (dirNodesE cs) cs hnd
        ((dirNamesE_sublist cs).nodup hnd) (forall2_dir_lookup cs hnd)
      have hfa_files : List.Forall₂
          (fun q u => lookupE (dirPass fix p rel (dirNamesE cs) cs).1 q = some u)
          (fileNamesE cs) (fileNodesE cs) :=
        forall2_lookup_congr (forall2_file_lookup cs hnd) (fun q hq =>
          D4 q ((fileNamesE_sublist cs).subset hq) (file_not_dir_name cs hnd q hq))
      obtain ⟨F1, F2, F3, F4⟩ := dirPass_spec fix p rel (fileNamesE cs) (fileNodesE cs)
        (dirPass fix p rel (dirNamesE cs) cs).1 D1
        ((fileNamesE_sublist cs).nodup hnd) hfa_files
      have hpend_mem : ∀ q ∈ (dirPass fix p rel (dirNamesE cs) cs).2.1,
          q ∈ namesE (dirPass fix p rel (dirNamesE cs) cs).1 ∧ q ∉ fileNamesE cs := by
        intro q hq
        obtain ⟨u, hu, hlu⟩ := forall2_mem_left D2 hq
        refine ⟨lookupE_mem _ _ _ hlu, fun hc => ?_⟩
        obtain ⟨v, hv, hlv⟩ := forall2_mem_left hfa_files hc
        have huv : u = v := by rw [hlu] at hlv; exact Option.some.inj hlv
        subst huv
        have h1 := fileNodesE_isDir cs u hv
        have h2 := dirNodesE_isDir cs u hu
        rw [h1] at h2
        exact Bool.false_ne_true h2
      have hfa_pend : List.Forall₂
          (fun q u => lookupE (dirPass fix p rel (fileNamesE cs)
            (dirPass fix p rel (dirNamesE cs) cs).1).1 q = some u)
          (dirPass fix p rel (dirNamesE cs) cs).2.1 (dirNodesE cs) :=
        forall2_lookup_congr D2 (fun q hq =>
          F4 q (hpend_mem q hq).1 (hpend_mem q hq).2)
      have hvis := ihPend rel (dirPass fix p rel (dirNamesE cs) cs).2.1 (dirNodesE cs)
        (dirPass fix p rel (fileNamesE cs) (dirPass fix p rel (dirNamesE cs) cs).1).1
        hfa_pend
        (fun u hu => ⟨dirNodesE_isDir cs u hu, wfE_dirNodes cs hwf u hu⟩)
        (by have := pendFuelL_le cs; omega)
      simp only [walkDir, filePass_eq_dirPass, WalkRes.add]
      rw [D3, F3, hvis, expectedSubs_eq]
    · intro rel pending nodes entries hfa hN hf
      cases hfa with
      | nil => rfl
      | cons hlk hfa' =>
        rename_i q u rest us
        rw [pendFuelL] at hf
        have hNu := hN u (by simp)
        have hNus : ∀ v ∈ us, v.isDirNode = true ∧ wfN v = true :=
          fun v hv => hN v (by simp [hv])
        cases u with
        | file i => rw [FsNode.isDirNode] at hNu; simp at hNu
        | dir i cs' =>
          have hwf' : (namesE cs').Nodup ∧ wfE cs' = true := by
            have := hNu.2
            rw [wfN] at this
            simp only [Bool.and_eq_true, decide_eq_true_eq] at this
            exact this
          have hdir := ihDir (relJoin rel q) cs' hwf'.1 hwf'.2
            (by rw [nodeFuel] at hf; omega)
          have hrest := ihPend rel rest us entries hfa' hNus (by omega)
          simp only [walkPend, hlk, WalkRes.add]
          rw [hdir, hrest, List.flatMap_cons]
          simp only [expectedN]

/-! ## Claim C2 -/

/-- C2: on every well-formed tree (distinct names within each directory,
as on a real filesystem), the walk visits exactly the entries that
existed at scan start, each exactly once, in the canonical order
`expectedN` (per directory: subdirectories, then files, then the
contents of each subdirectory) — for any fix mode and prefix length, so
in particular when directories are renamed during the traversal: the
pending-list rewrite makes every descent resolve, no entry is skipped
and none is visited twice. -/
theorem claim_C2_traversal_complete (cs : FsEntries) (fix : Bool) (p : Nat)
    (hnd : (namesE cs).Nodup) (hwf : wfE cs = true) :
    (validateRun cs fix p).visited = expectedN (.dir 0 cs) := by
  rw [validateRun]
  rw [(walk_spec fix p (1 + entriesFuel cs)).1 [] cs hnd hwf (le_refl _)]
  rw [expectedN]

/-- C2 witness: the scenario tree (a directory `~backup` that fix mode
renames to `_backup`, containing a file) — its file is still discovered
after the rename; the visit stream is exactly ids 1 (the directory),
3 (the sibling file), 2 (the file inside the renamed directory). -/
theorem claim_C2_witness :
    (validateRun renameScenarioTree true 0).visited = expectedN (.dir 0 renameScenarioTree) ∧
    (validateRun renameScenarioTree true 0).visited = [1, 3, 2] := by
  refine ⟨claim_C2_traversal_complete renameScenarioTree true 0 (by decide) (by decide), ?_⟩
  decide

end OnedriveValidate
